import Mathlib

/-!
Verification of the `ti-ddb` batch helpers (`src/batchHelper.ts`).

Shallow embedding of the bulk-operation helpers for DynamoDB-style batch
APIs: `batchGetAll`, `batchPutAll` and `batchScanAll`, together with the
shared exponential-backoff policy.

The backend (`dynamodb.send`) is modelled as a script: a list containing,
for each round the loop performs, either the backend's response for that
round or the error the call raised.  A run returns:

* `.error e`   — an exception `e` propagated to the caller;
* `.ok none`   — the script was exhausted while the loop still had pending
                 work (the real loop would keep issuing calls);
* `.ok (some t)` — the call resolved, with `t` a trace recording, for every
                 round, the pending queue at round start, the chunk
                 submitted, the backend outcome, the backoff value and the
                 wait emitted (if any).

Machine numbers are modelled as `Nat`: all quantities involved (queue
lengths, millisecond waits with the default configuration) are small
non-negative integers.
-/

namespace TiDdb

/-- The maximum number of items that can be got in a single request
(`batchGetLimit = 100`). -/
def batchGetLimit : Nat := 100

/-- The maximum number of items that can be put in a single request
(`batchWriteLimit = 25`). -/
def batchWriteLimit : Nat := 25

/-- The module-level backoff settings `backoffInitial`, `backoffMax`,
`backoffFactor`, read by a bulk call.  They are mutable module variables in
the source; a run reads a fixed snapshot. -/
structure BackoffCfg where
  backoffInitial : Nat
  backoffMax : Nat
  backoffFactor : Nat
  deriving DecidableEq, Repr

/-- The default module settings: `backoffInitial = 1000`,
`backoffMax = 30000`, `backoffFactor = 2`. -/
def defaultCfg : BackoffCfg := ⟨1000, 30000, 2⟩

/-! ## batchGetAll -/

/-- One backend response to a `BatchGetCommand`: the records under
`Responses[table]` and the keys under `UnprocessedKeys[table].Keys`
(`[]` models an absent or empty unprocessed set). -/
structure GetResp (K R : Type) where
  responses : List R
  unprocessedKeys : List K
  deriving DecidableEq, Repr

/-- Observable record of one round of the `batchGetAll` loop. -/
structure GetRound (K R : Type) where
  /-- the `unprocessedKeys` queue at the start of the round -/
  pendingBefore : List K
  /-- the keys spliced out and submitted this round -/
  chunk : List K
  /-- the records the backend returned this round -/
  got : List R
  /-- the unprocessed keys the backend reported this round -/
  residual : List K
  /-- the value of the `backoff` variable during this round -/
  backoffBefore : Nat
  /-- `some w` iff `wait(w)` was emitted this round -/
  waited : Option Nat
  deriving DecidableEq, Repr

/-- The observable outcome of a resolved `batchGetAll` call: the returned
record list and the per-round trace. -/
structure GetTrace (K R : Type) where
  results : List R
  rounds : List (GetRound K R)
  deriving DecidableEq, Repr

/-- The retry loop of `batchGetAll` (source lines 88–116).  Arguments:
backend script, the `unprocessedKeys` queue, the current `backoff`. -/
def batchGetAllGo (cfg : BackoffCfg) :
    List (Except String (GetResp K R)) → List K → Nat →
    Except String (Option (GetTrace K R))
  | _, [], _ => .ok (some ⟨[], []⟩)
  | [], _ :: _, _ => .ok none
  | resp :: rest, k :: ks, backoff =>
    let pending := k :: ks
    let take := min pending.length batchGetLimit
    let chunk := pending.take take
    let pendingAfter := pending.drop take
    match resp with
    | .error e => .error e
    | .ok g =>
      if g.unprocessedKeys.isEmpty then
        match batchGetAllGo cfg rest pendingAfter cfg.backoffInitial with
        | .error e => .error e
        | .ok none => .ok none
        | .ok (some t) =>
          .ok (some ⟨g.responses ++ t.results,
            ⟨pending, chunk, g.responses, g.unprocessedKeys, backoff, none⟩ :: t.rounds⟩)
      else
        match batchGetAllGo cfg rest (g.unprocessedKeys ++ pendingAfter)
            (min (backoff * cfg.backoffFactor) cfg.backoffMax) with
        | .error e => .error e
        | .ok none => .ok none
        | .ok (some t) =>
          .ok (some ⟨g.responses ++ t.results,
            ⟨pending, chunk, g.responses, g.unprocessedKeys, backoff, some backoff⟩ :: t.rounds⟩)

/-- The `Keys` plus pass-through options of one table entry of
`RequestItems` (options are irrelevant to the loop and omitted). -/
structure KeysAndAttributes (K : Type) where
  keys : List K
  deriving DecidableEq, Repr

/-- A `BatchGetCommandInput`: the optional `RequestItems` map from table
name to keys, as an association list. -/
structure BatchGetInput (K : Type) where
  requestItems : Option (List (String × KeysAndAttributes K))
  deriving DecidableEq, Repr

/-- `batchGetAll` (source lines 68–119): absent `RequestItems` returns `[]`
immediately; a map with a number of tables other than one throws; otherwise
the keys of the single table seed the retry loop with
`backoff = backoffInitial`. -/
def batchGetAll (cfg : BackoffCfg) (script : List (Except String (GetResp K R)))
    (input : BatchGetInput K) : Except String (Option (GetTrace K R)) :=
  match input.requestItems with
  | none => .ok (some ⟨[], []⟩)
  | some tables =>
    match tables with
    | [(_, ka)] => batchGetAllGo cfg script ka.keys cfg.backoffInitial
    | _ => .error "Only batchGet from a single table at a time is supported in this method."

/-! ## batchPutAll -/

deriving instance DecidableEq for Except

/-- A put unit: `{ PutRequest: { Item: it } }`. -/
structure PutReq (I : Type) where
  item : I
  deriving DecidableEq, Repr

/-- Observable record of one round of the `batchPutAll` loop.  The backend
outcome is `.error e` when the call raised (caught and absorbed by the
source) and `.ok l` when it returned with `UnprocessedItems[table] = l`. -/
structure PutRound (I : Type) where
  /-- the `unprocessedItems` queue at the start of the round -/
  pendingBefore : List (PutReq I)
  /-- the units spliced out and submitted this round -/
  chunk : List (PutReq I)
  /-- the backend outcome for this round -/
  outcome : Except String (List (PutReq I))
  /-- the value of the `backoff` variable during this round -/
  backoffBefore : Nat
  /-- `some w` iff `wait(w)` was emitted this round -/
  waited : Option Nat
  /-- the string passed to `logCallback` this round, if a callback was given -/
  logged : Option String
  deriving DecidableEq, Repr

/-- The observable outcome of a resolved `batchPutAll` call: the per-round
trace and the full sequence of `logCallback` invocations. -/
structure PutTrace (I : Type) where
  rounds : List (PutRound I)
  log : List String
  deriving DecidableEq, Repr

/-- The items the backend reported unprocessed, for a round outcome: a
raised (and caught) error behaves as zero unprocessed items. -/
def putResidual : Except String (List (PutReq I)) → List (PutReq I)
  | .error _ => []
  | .ok l => l

/-- The retry loop of `batchPutAll` (source lines 150–185).  A raised
backend error is caught: the chunk is logged and abandoned, and the loop
continues on the reset branch (`response` is `undefined`, so the
unprocessed-items test fails). -/
def batchPutAllGo (cfg : BackoffCfg) (hasCallback : Bool) :
    List (Except String (List (PutReq I))) → List (PutReq I) → Nat →
    Except String (Option (List (PutRound I)))
  | _, [], _ => .ok (some [])
  | [], _ :: _, _ => .ok none
  | resp :: rest, u :: us, backoff =>
    let pending := u :: us
    let take := min pending.length batchWriteLimit
    let chunk := pending.take take
    let pendingAfter := pending.drop take
    let logged : Option String :=
      if hasCallback then some (Nat.repr pendingAfter.length) else none
    if (putResidual resp).isEmpty then
      match batchPutAllGo cfg hasCallback rest pendingAfter cfg.backoffInitial with
      | .error e => .error e
      | .ok none => .ok none
      | .ok (some rounds) =>
        .ok (some (⟨pending, chunk, resp, backoff, none, logged⟩ :: rounds))
    else
      match batchPutAllGo cfg hasCallback rest (putResidual resp ++ pendingAfter)
          (min (backoff * cfg.backoffFactor) cfg.backoffMax) with
      | .error e => .error e
      | .ok none => .ok none
      | .ok (some rounds) =>
        .ok (some (⟨pending, chunk, resp, backoff, some backoff, logged⟩ :: rounds))

/-- The `RequestItems` map `batchPutAll` builds (source lines 134–138):
one entry, mapping the scalar `table` argument to the wrapped items. -/
def putInput (table : String) (items : List I) : List (String × List (PutReq I)) :=
  [(table, items.map (fun it => ⟨it⟩))]

/-- `batchPutAll` from its built `RequestItems` map onwards (source lines
140–186): the single-table guard, then the retry loop seeded with all put
units and `backoff = backoffInitial`.  The resolved trace carries the full
`logCallback` history: `"starting batch write"` once at the start, then one
count per round. -/
def batchPutAllCore (cfg : BackoffCfg)
    (script : List (Except String (List (PutReq I))))
    (input : List (String × List (PutReq I))) (hasCallback : Bool) :
    Except String (Option (PutTrace I)) :=
  match input with
  | [(_, units)] =>
    match batchPutAllGo cfg hasCallback script units cfg.backoffInitial with
    | .error e => .error e
    | .ok none => .ok none
    | .ok (some rounds) =>
      .ok (some ⟨rounds,
        (if hasCallback then ["starting batch write"] else []) ++
          rounds.filterMap PutRound.logged⟩)
  | _ => .error "Only batchWrite to a single table at a time is supported in this method."

/-- `batchPutAll` (source lines 126–186): wraps the items of the scalar
table into put units and runs the core. -/
def batchPutAll (cfg : BackoffCfg) (script : List (Except String (List (PutReq I))))
    (table : String) (items : List I) (hasCallback : Bool) :
    Except String (Option (PutTrace I)) :=
  batchPutAllCore cfg script (putInput table items) hasCallback

/-! ## batchScanAll -/

/-- One backend response to a `ScanCommand`: `Items` and the optional
`LastEvaluatedKey` continuation cursor. -/
structure ScanResp (C R : Type) where
  items : List R
  lastEvaluatedKey : Option C
  deriving DecidableEq, Repr

/-- Observable record of one round of the `batchScanAll` loop. -/
structure ScanRound (C R : Type) where
  /-- the `ExclusiveStartKey` merged into this round's request
  (`none` on the first call) -/
  cursorUsed : Option C
  /-- the records returned this round -/
  items : List R
  /-- the `LastEvaluatedKey` this round's response carried -/
  nextCursor : Option C
  deriving DecidableEq, Repr

/-- The observable outcome of a resolved `batchScanAll` call. -/
structure ScanTrace (C R : Type) where
  results : List R
  rounds : List (ScanRound C R)
  deriving DecidableEq, Repr

/-- The do-while loop of `batchScanAll` (source lines 202–217): issue the
scan with the current cursor, append every returned item, capture the new
cursor, and stop exactly when it is `undefined`. -/
def batchScanAllGo :
    List (Except String (ScanResp C R)) → Option C →
    Except String (Option (ScanTrace C R))
  | [], _ => .ok none
  | .error e :: _, _ => .error e
  | .ok g :: rest, cur =>
    match g.lastEvaluatedKey with
    | none => .ok (some ⟨g.items, [⟨cur, g.items, none⟩]⟩)
    | some c =>
      match batchScanAllGo rest (some c) with
      | .error e => .error e
      | .ok none => .ok none
      | .ok (some t) =>
        .ok (some ⟨g.items ++ t.results, ⟨cur, g.items, some c⟩ :: t.rounds⟩)

/-- `batchScanAll` (source lines 192–220): the walker starts with
`lastEvalKey = undefined`, so the first request carries no
`ExclusiveStartKey`. -/
def batchScanAll (script : List (Except String (ScanResp C R))) :
    Except String (Option (ScanTrace C R)) :=
  batchScanAllGo script none

/-! ## Round-trace characterisation of the get loop -/

/-- `getRoundsWF cfg script pending backoff rounds` says that `rounds` is
exactly the round trace the get loop produces from queue `pending` and
current backoff `backoff` when the backend behaves as `script`, ending with
an empty queue. -/
def getRoundsWF (cfg : BackoffCfg) :
    List (Except String (GetResp K R)) → List K → Nat → List (GetRound K R) → Prop
  | _, p, _, [] => p = []
  | rs, p, b, r :: rest =>
    p ≠ [] ∧
    ∃ g rs', rs = .ok g :: rs' ∧
      r = ⟨p, p.take (min p.length batchGetLimit), g.responses, g.unprocessedKeys, b,
           if g.unprocessedKeys.isEmpty then none else some b⟩ ∧
      (if g.unprocessedKeys.isEmpty then
        getRoundsWF cfg rs' (p.drop (min p.length batchGetLimit)) cfg.backoffInitial rest
      else
        getRoundsWF cfg rs' (g.unprocessedKeys ++ p.drop (min p.length batchGetLimit))
          (min (b * cfg.backoffFactor) cfg.backoffMax) rest)

theorem getGo_sound (cfg : BackoffCfg) :
    ∀ (rs : List (Except String (GetResp K R))) (p : List K) (b : Nat) (t : GetTrace K R),
      batchGetAllGo cfg rs p b = .ok (some t) →
      getRoundsWF cfg rs p b t.rounds ∧ t.results = (t.rounds.map GetRound.got).flatten := by
  intro rs
  induction rs with
  | nil =>
    intro p b t h
    cases p with
    | nil =>
      simp only [batchGetAllGo] at h
      cases h
      exact ⟨rfl, rfl⟩
    | cons k ks => simp [batchGetAllGo] at h
  | cons resp rest ih =>
    intro p b t h
    cases p with
    | nil =>
      simp only [batchGetAllGo] at h
      cases h
      exact ⟨rfl, rfl⟩
    | cons k ks =>
      simp only [batchGetAllGo] at h
      cases resp with
      | error e => simp at h
      | ok g =>
        simp only at h
        by_cases hemp : g.unprocessedKeys.isEmpty
        · rw [if_pos hemp] at h
          cases hrec : batchGetAllGo cfg rest ((k :: ks).drop (min (k :: ks).length batchGetLimit))
              cfg.backoffInitial with
          | error e => rw [hrec] at h; exact absurd h (by simp)
          | ok o =>
            cases o with
            | none => rw [hrec] at h; exact absurd h (by simp)
            | some t' =>
              rw [hrec] at h
              cases h
              obtain ⟨hwf, hres⟩ := ih _ _ _ hrec
              refine ⟨⟨by simp, g, rest, rfl, by rw [if_pos hemp], ?_⟩, by simp [hres]⟩
              rw [if_pos hemp]
              exact hwf
        · rw [if_neg hemp] at h
          cases hrec : batchGetAllGo cfg rest
              (g.unprocessedKeys ++ (k :: ks).drop (min (k :: ks).length batchGetLimit))
              (min (b * cfg.backoffFactor) cfg.backoffMax) with
          | error e => rw [hrec] at h; exact absurd h (by simp)
          | ok o =>
            cases o with
            | none => rw [hrec] at h; exact absurd h (by simp)
            | some t' =>
              rw [hrec] at h
              cases h
              obtain ⟨hwf, hres⟩ := ih _ _ _ hrec
              refine ⟨⟨by simp, g, rest, rfl, by rw [if_neg hemp], ?_⟩, by simp [hres]⟩
              rw [if_neg hemp]
              exact hwf

/-- Per-round facts of the get loop: every round starts on a non-empty
queue, submits exactly the first `min(|pending|, 100)` keys of it, and
emits `wait(backoff)` iff the backend reported a residual. -/
theorem getWF_mem (cfg : BackoffCfg) :
    ∀ (rounds : List (GetRound K R)) rs p b, getRoundsWF cfg rs p b rounds →
      ∀ r ∈ rounds,
        r.pendingBefore ≠ [] ∧
        r.chunk = r.pendingBefore.take (min r.pendingBefore.length batchGetLimit) ∧
        r.chunk.length = min r.pendingBefore.length batchGetLimit ∧
        r.waited = (if r.residual.isEmpty then none else some r.backoffBefore) := by
  intro rounds
  induction rounds with
  | nil => intro rs p b _ r hr; simp at hr
  | cons x rest ih =>
    intro rs p b hwf r hr
    obtain ⟨hp, g, rs', hrs, hx, hrest⟩ := hwf
    rcases List.mem_cons.mp hr with hrx | hrx
    · subst hrx; subst hx
      refine ⟨hp, rfl, ?_, rfl⟩
      simp only [List.length_take]
      omega
    · split at hrest
      · exact ih _ _ _ hrest r hrx
      · exact ih _ _ _ hrest r hrx

/-- Chunk accounting for the get loop: the chunk sizes over all rounds sum
to the seed queue size plus the total residual size. -/
theorem getWF_account (cfg : BackoffCfg) :
    ∀ (rounds : List (GetRound K R)) rs p b, getRoundsWF cfg rs p b rounds →
      (rounds.map (fun r => r.chunk.length)).sum =
        p.length + (rounds.map (fun r => r.residual.length)).sum := by
  intro rounds
  induction rounds with
  | nil => intro rs p b hwf; simp [getRoundsWF] at hwf; simp [hwf]
  | cons x rest ih =>
    intro rs p b hwf
    obtain ⟨hp, g, rs', hrs, hx, hrest⟩ := hwf
    have hplen : 1 ≤ p.length := by
      cases p with
      | nil => exact absurd rfl hp
      | cons a as => simp
    split at hrest
    case isTrue hemp =>
      have hres := ih _ _ _ hrest
      have hgnil : g.unprocessedKeys = [] := List.isEmpty_iff.mp hemp
      subst hx
      simp only [List.map_cons, List.sum_cons, hres, List.length_drop, List.length_take,
        hgnil, List.length_nil]
      omega
    case isFalse hemp =>
      have hres := ih _ _ _ hrest
      subst hx
      simp only [List.map_cons, List.sum_cons, hres, List.length_append, List.length_drop,
        List.length_take]
      omega

/-- The consumed prefix of the backend script is exactly reflected in the
trace: round `i` records the records and residual of script entry `i`,
which is an `ok` response. -/
theorem getWF_script (cfg : BackoffCfg) :
    ∀ (rounds : List (GetRound K R)) rs p b, getRoundsWF cfg rs p b rounds →
      rs.take rounds.length =
        rounds.map (fun r => Except.ok ⟨r.got, r.residual⟩) := by
  intro rounds
  induction rounds with
  | nil => intro rs p b _; simp
  | cons x rest ih =>
    intro rs p b hwf
    obtain ⟨hp, g, rs', hrs, hx, hrest⟩ := hwf
    subst hrs; subst hx
    simp only [List.length_cons, List.take_succ_cons, List.map_cons, List.cons.injEq]
    split at hrest
    · exact ⟨trivial, ih _ _ _ hrest⟩
    · exact ⟨trivial, ih _ _ _ hrest⟩

/-- When no round reports a residual, the get loop performs exactly
`⌈|keys| / 100⌉` rounds. -/
theorem getWF_noResidual_length (cfg : BackoffCfg) :
    ∀ (rounds : List (GetRound K R)) rs p b, getRoundsWF cfg rs p b rounds →
      (∀ r ∈ rounds, r.residual = []) →
      rounds.length = (p.length + (batchGetLimit - 1)) / batchGetLimit := by
  intro rounds
  induction rounds with
  | nil =>
    intro rs p b hwf _
    simp only [getRoundsWF] at hwf
    simp [hwf, batchGetLimit]
  | cons x rest ih =>
    intro rs p b hwf hres
    obtain ⟨hp, g, rs', hrs, hx, hrest⟩ := hwf
    have hgnil : g.unprocessedKeys = [] := by
      have := hres x (List.mem_cons_self x rest)
      rw [hx] at this
      exact this
    rw [if_pos (List.isEmpty_iff.mpr hgnil)] at hrest
    have hlen := ih _ _ _ hrest (fun r hr => hres r (List.mem_cons_of_mem x hr))
    have hplen : 1 ≤ p.length := by
      cases p with
      | nil => exact absurd rfl hp
      | cons a as => simp
    simp only [List.length_cons, hlen, List.length_drop, batchGetLimit] at *
    omega

/-- The backoff variable stays within `[backoffInitial, backoffMax]`
throughout the get loop, for any sane configuration. -/
theorem getWF_bounds (cfg : BackoffCfg) (him : cfg.backoffInitial ≤ cfg.backoffMax)
    (hf : 1 ≤ cfg.backoffFactor) :
    ∀ (rounds : List (GetRound K R)) rs p b, getRoundsWF cfg rs p b rounds →
      cfg.backoffInitial ≤ b → b ≤ cfg.backoffMax →
      ∀ r ∈ rounds, cfg.backoffInitial ≤ r.backoffBefore ∧ r.backoffBefore ≤ cfg.backoffMax := by
  intro rounds
  induction rounds with
  | nil => intro rs p b _ _ _ r hr; simp at hr
  | cons x rest ih =>
    intro rs p b hwf hlb hub r hr
    obtain ⟨hp, g, rs', hrs, hx, hrest⟩ := hwf
    rcases List.mem_cons.mp hr with hrx | hrx
    · subst hrx; subst hx; exact ⟨hlb, hub⟩
    · split at hrest
      · exact ih _ _ _ hrest le_rfl him r hrx
      · refine ih _ _ _ hrest ?_ ?_ r hrx
        · have : b ≤ b * cfg.backoffFactor := Nat.le_mul_of_pos_right b hf
          omega
        · omega

/-- No key of the seed queue is lost: in a finished run, every seeded key
was submitted in some chunk. -/
theorem getWF_noloss (cfg : BackoffCfg) :
    ∀ (rounds : List (GetRound K R)) rs p b, getRoundsWF cfg rs p b rounds →
      ∀ k ∈ p, ∃ r ∈ rounds, k ∈ r.chunk := by
  intro rounds
  induction rounds with
  | nil =>
    intro rs p b hwf k hk
    simp only [getRoundsWF] at hwf
    subst hwf
    simp at hk
  | cons x rest ih =>
    intro rs p b hwf k hk
    obtain ⟨hp, g, rs', hrs, hx, hrest⟩ := hwf
    set m := min p.length batchGetLimit with hm
    have hsplit : k ∈ p.take m ∨ k ∈ p.drop m := by
      rw [← List.mem_append, List.take_append_drop]
      exact hk
    rcases hsplit with hkt | hkd
    · exact ⟨x, List.mem_cons_self x rest, by rw [hx]; exact hkt⟩
    · split at hrest
      · obtain ⟨r, hr, hkr⟩ := ih _ _ _ hrest k hkd
        exact ⟨r, List.mem_cons_of_mem x hr, hkr⟩
      · obtain ⟨r, hr, hkr⟩ := ih _ _ _ hrest k
          (List.mem_append_right g.unprocessedKeys hkd)
        exact ⟨r, List.mem_cons_of_mem x hr, hkr⟩

/-- Queue invariant of the get loop: at the start of any round, every
seeded key has either already been submitted in an earlier chunk or is
still in the pending queue. -/
theorem getWF_invariant (cfg : BackoffCfg) :
    ∀ (pre : List (GetRound K R)) rs p b r post,
      getRoundsWF cfg rs p b (pre ++ r :: post) →
      ∀ k ∈ p, (∃ x ∈ pre, k ∈ x.chunk) ∨ k ∈ r.pendingBefore := by
  intro pre
  induction pre with
  | nil =>
    intro rs p b r post hwf k hk
    obtain ⟨hp, g, rs', hrs, hx, hrest⟩ := hwf
    right
    rw [hx]
    exact hk
  | cons x pre' ih =>
    intro rs p b r post hwf k hk
    obtain ⟨hp, g, rs', hrs, hx, hrest⟩ := hwf
    set m := min p.length batchGetLimit with hm
    have hsplit : k ∈ p.take m ∨ k ∈ p.drop m := by
      rw [← List.mem_append, List.take_append_drop]
      exact hk
    rcases hsplit with hkt | hkd
    · exact Or.inl ⟨x, List.mem_cons_self x pre', by rw [hx]; exact hkt⟩
    · split at hrest
      · rcases ih _ _ _ _ _ hrest k hkd with ⟨y, hy, hky⟩ | hkp
        · exact Or.inl ⟨y, List.mem_cons_of_mem x hy, hky⟩
        · exact Or.inr hkp
      · rcases ih _ _ _ _ _ hrest k (List.mem_append_right g.unprocessedKeys hkd) with
          ⟨y, hy, hky⟩ | hkp
        · exact Or.inl ⟨y, List.mem_cons_of_mem x hy, hky⟩
        · exact Or.inr hkp

/-- Relation between two adjacent rounds of the get loop: after a residual
round the residual is prepended to the remaining queue and the backoff
grows (capped); after a residual-free round the queue is just the
remainder and the backoff resets to `backoffInitial`. -/
theorem getWF_adjacent (cfg : BackoffCfg) :
    ∀ (pre : List (GetRound K R)) rs p b r r2 post,
      getRoundsWF cfg rs p b (pre ++ r :: r2 :: post) →
      (r.residual = [] →
        r.waited = none ∧ r2.backoffBefore = cfg.backoffInitial ∧
        r2.pendingBefore = r.pendingBefore.drop (min r.pendingBefore.length batchGetLimit)) ∧
      (r.residual ≠ [] →
        r.waited = some r.backoffBefore ∧
        r2.backoffBefore = min (r.backoffBefore * cfg.backoffFactor) cfg.backoffMax ∧
        r2.pendingBefore =
          r.residual ++ r.pendingBefore.drop (min r.pendingBefore.length batchGetLimit)) := by
  intro pre
  induction pre with
  | nil =>
    intro rs p b r r2 post hwf
    obtain ⟨hp, g, rs', hrs, hx, hrest⟩ := hwf
    split at hrest
    case isTrue hemp =>
      obtain ⟨hp2, g2, rs2, hrs2, hx2, _⟩ := hrest
      constructor
      · intro _
        subst hx
        exact ⟨by simp [hemp], by rw [hx2], by rw [hx2]⟩
      · intro hres
        subst hx
        exact absurd (List.isEmpty_iff.mp hemp) hres
    case isFalse hemp =>
      obtain ⟨hp2, g2, rs2, hrs2, hx2, _⟩ := hrest
      constructor
      · intro hres
        rw [hx] at hres
        exact absurd (List.isEmpty_iff.mpr hres) hemp
      · intro _
        subst hx
        exact ⟨by simp [hemp], by rw [hx2], by rw [hx2]⟩
  | cons x pre' ih =>
    intro rs p b r r2 post hwf
    obtain ⟨hp, g, rs', hrs, hx, hrest⟩ := hwf
    split at hrest
    · exact ih _ _ _ _ _ _ hrest
    · exact ih _ _ _ _ _ _ hrest

/-- Splitting a get trace: the suffix after `pre` is itself a well-formed
trace, and when the last round of `pre` reported no residual the suffix
starts with `backoff = backoffInitial`. -/
theorem getWF_append (cfg : BackoffCfg) :
    ∀ (pre : List (GetRound K R)) rs p b suffix,
      getRoundsWF cfg rs p b (pre ++ suffix) →
      ∃ rs2 p2 b2, getRoundsWF cfg rs2 p2 b2 suffix ∧
        (pre = [] → rs2 = rs ∧ p2 = p ∧ b2 = b) ∧
        (∀ x, pre.getLast? = some x → x.residual = [] → b2 = cfg.backoffInitial) := by
  intro pre
  induction pre with
  | nil =>
    intro rs p b suffix hwf
    exact ⟨rs, p, b, hwf, fun _ => ⟨rfl, rfl, rfl⟩, by simp⟩
  | cons x pre' ih =>
    intro rs p b suffix hwf
    obtain ⟨hp, g, rs', hrs, hx, hrest⟩ := hwf
    cases pre' with
    | nil =>
      split at hrest
      case isTrue hemp =>
        exact ⟨rs', _, cfg.backoffInitial, hrest, by simp, by
          intro y hy _
          rfl⟩
      case isFalse hemp =>
        refine ⟨rs', _, _, hrest, by simp, ?_⟩
        intro y hy hres
        simp only [List.getLast?_singleton, Option.some.injEq] at hy
        subst hy
        rw [hx] at hres
        exact absurd (List.isEmpty_iff.mpr hres) hemp
    | cons z pre2 =>
      have hlast : (x :: z :: pre2).getLast? = (z :: pre2).getLast? := by
        rw [List.getLast?_cons_cons]
      split at hrest
      · obtain ⟨rs2, p2, b2, hwf2, _, hcond⟩ := ih _ _ _ _ hrest
        exact ⟨rs2, p2, b2, hwf2, by simp, by rw [hlast]; exact hcond⟩
      · obtain ⟨rs2, p2, b2, hwf2, _, hcond⟩ := ih _ _ _ _ hrest
        exact ⟨rs2, p2, b2, hwf2, by simp, by rw [hlast]; exact hcond⟩

/-- One capped-exponential step: growing the `j`-th default-config backoff
value and capping again yields the `j+1`-st value. -/
theorem capStep (j : Nat) :
    min (min (1000 * 2 ^ j) 30000 * 2) 30000 = min (1000 * 2 ^ (j + 1)) 30000 := by
  have h : 1000 * 2 ^ (j + 1) = 1000 * 2 ^ j * 2 := by ring
  rw [h]
  omega

/-- From the sixth consecutive backoff step on, the default-config wait is
pinned at the 30000 ms cap. -/
theorem capTail (j : Nat) (h : 5 ≤ j) : min (1000 * 2 ^ j) 30000 = 30000 := by
  have h32 : (32 : Nat) ≤ 2 ^ j := by
    calc (32 : Nat) = 2 ^ 5 := by norm_num
    _ ≤ 2 ^ j := Nat.pow_le_pow_right (by norm_num) h
  have : 32000 ≤ 1000 * 2 ^ j := by omega
  omega

/-- Wait sequence along a run of consecutive residual rounds in the get
loop (default configuration): if the streak starts with backoff value
`min (1000 * 2 ^ j) 30000`, its `i`-th round waits
`min (1000 * 2 ^ (j + i)) 30000` ms. -/
theorem getWF_streak :
    ∀ (streak : List (GetRound K R)) rs p (j : Nat) post,
      getRoundsWF defaultCfg rs p (min (1000 * 2 ^ j) 30000) (streak ++ post) →
      (∀ r ∈ streak, r.residual ≠ []) →
      streak.map GetRound.waited =
        (List.range streak.length).map (fun i => some (min (1000 * 2 ^ (j + i)) 30000)) := by
  intro streak
  induction streak with
  | nil => intro rs p j post _ _; simp
  | cons x rest ih =>
    intro rs p j post hwf hres
    obtain ⟨hp, g, rs', hrs, hx, hrest⟩ := hwf
    have hgne : ¬ g.unprocessedKeys.isEmpty = true := by
      intro hemp
      apply hres x (List.mem_cons_self x rest)
      rw [hx]
      exact List.isEmpty_iff.mp hemp
    rw [if_neg hgne] at hrest
    have hb2 : min (min (1000 * 2 ^ j) 30000 * defaultCfg.backoffFactor) defaultCfg.backoffMax
        = min (1000 * 2 ^ (j + 1)) 30000 := capStep j
    rw [hb2] at hrest
    have hIH := ih rs' _ (j + 1) post hrest (fun r hr => hres r (List.mem_cons_of_mem x hr))
    have hxw : x.waited = some (min (1000 * 2 ^ j) 30000) := by
      rw [hx]
      simp [if_neg hgne]
    simp only [List.map_cons, List.length_cons, hxw, hIH, List.range_succ_eq_map,
      List.map_map, List.cons.injEq]
    refine ⟨by simp, ?_⟩
    apply List.map_congr_left
    intro i _
    have h2 : j + 1 + i = j + (i + 1) := by omega
    simp [Function.comp, h2]

/-! ## Round-trace characterisation of the put loop -/

/-- `putRoundsWF cfg hasCallback script pending backoff rounds` says that
`rounds` is exactly the round trace the put loop produces from queue
`pending` and current backoff `backoff` when the backend behaves as
`script`, ending with an empty queue. -/
def putRoundsWF (cfg : BackoffCfg) (hasCallback : Bool) :
    List (Except String (List (PutReq I))) → List (PutReq I) → Nat →
    List (PutRound I) → Prop
  | _, p, _, [] => p = []
  | rs, p, b, r :: rest =>
    p ≠ [] ∧
    ∃ o rs', rs = o :: rs' ∧
      r = ⟨p, p.take (min p.length batchWriteLimit), o, b,
           if (putResidual o).isEmpty then none else some b,
           if hasCallback then some (Nat.repr (p.drop (min p.length batchWriteLimit)).length)
           else none⟩ ∧
      (if (putResidual o).isEmpty then
        putRoundsWF cfg hasCallback rs' (p.drop (min p.length batchWriteLimit))
          cfg.backoffInitial rest
      else
        putRoundsWF cfg hasCallback rs' (putResidual o ++ p.drop (min p.length batchWriteLimit))
          (min (b * cfg.backoffFactor) cfg.backoffMax) rest)

theorem putGo_sound (cfg : BackoffCfg) (hasCallback : Bool) :
    ∀ (rs : List (Except String (List (PutReq I)))) (p : List (PutReq I)) (b : Nat)
      (rounds : List (PutRound I)),
      batchPutAllGo cfg hasCallback rs p b = .ok (some rounds) →
      putRoundsWF cfg hasCallback rs p b rounds := by
  intro rs
  induction rs with
  | nil =>
    intro p b rounds h
    cases p with
    | nil =>
      simp only [batchPutAllGo] at h
      cases h
      rfl
    | cons u us => simp [batchPutAllGo] at h
  | cons resp rest ih =>
    intro p b rounds h
    cases p with
    | nil =>
      simp only [batchPutAllGo] at h
      cases h
      rfl
    | cons u us =>
      simp only [batchPutAllGo] at h
      by_cases hemp : (putResidual resp).isEmpty
      · rw [if_pos hemp] at h
        cases hrec : batchPutAllGo cfg hasCallback rest
            ((u :: us).drop (min (u :: us).length batchWriteLimit)) cfg.backoffInitial with
        | error e => rw [hrec] at h; exact absurd h (by simp)
        | ok o =>
          cases o with
          | none => rw [hrec] at h; exact absurd h (by simp)
          | some rounds2 =>
            rw [hrec] at h
            cases h
            refine ⟨by simp, resp, rest, rfl, by rw [if_pos hemp], ?_⟩
            rw [if_pos hemp]
            exact ih _ _ _ hrec
      · rw [if_neg hemp] at h
        cases hrec : batchPutAllGo cfg hasCallback rest
            (putResidual resp ++ (u :: us).drop (min (u :: us).length batchWriteLimit))
            (min (b * cfg.backoffFactor) cfg.backoffMax) with
        | error e => rw [hrec] at h; exact absurd h (by simp)
        | ok o =>
          cases o with
          | none => rw [hrec] at h; exact absurd h (by simp)
          | some rounds2 =>
            rw [hrec] at h
            cases h
            refine ⟨by simp, resp, rest, rfl, by rw [if_neg hemp], ?_⟩
            rw [if_neg hemp]
            exact ih _ _ _ hrec

/-- Per-round facts of the put loop: every round starts on a non-empty
queue, submits exactly the first `min(|pending|, 25)` units, emits
`wait(backoff)` iff the backend returned a non-empty unprocessed set (in
particular never after a raised error), and — when a callback was given —
passes it the decimal size of the queue remaining after the splice. -/
theorem putWF_mem (cfg : BackoffCfg) (hasCallback : Bool) :
    ∀ (rounds : List (PutRound I)) rs p b, putRoundsWF cfg hasCallback rs p b rounds →
      ∀ r ∈ rounds,
        r.pendingBefore ≠ [] ∧
        r.chunk = r.pendingBefore.take (min r.pendingBefore.length batchWriteLimit) ∧
        r.chunk.length = min r.pendingBefore.length batchWriteLimit ∧
        r.waited = (if (putResidual r.outcome).isEmpty then none else some r.backoffBefore) ∧
        r.logged = (if hasCallback then
          some (Nat.repr (r.pendingBefore.length - min r.pendingBefore.length batchWriteLimit))
          else none) := by
  intro rounds
  induction rounds with
  | nil => intro rs p b _ r hr; simp at hr
  | cons x rest ih =>
    intro rs p b hwf r hr
    obtain ⟨hp, o, rs', hrs, hx, hrest⟩ := hwf
    rcases List.mem_cons.mp hr with hrx | hrx
    · subst hrx; subst hx
      refine ⟨hp, rfl, ?_, rfl, ?_⟩
      · simp only [List.length_take]
        omega
      · simp only [List.length_drop]
    · split at hrest
      · exact ih _ _ _ hrest r hrx
      · exact ih _ _ _ hrest r hrx

/-- Chunk accounting for the put loop: the chunk sizes over all rounds sum
to the seed queue size plus the total residual size (raised errors
contributing zero residual). -/
theorem putWF_account (cfg : BackoffCfg) (hasCallback : Bool) :
    ∀ (rounds : List (PutRound I)) rs p b, putRoundsWF cfg hasCallback rs p b rounds →
      (rounds.map (fun r => r.chunk.length)).sum =
        p.length + (rounds.map (fun r => (putResidual r.outcome).length)).sum := by
  intro rounds
  induction rounds with
  | nil => intro rs p b hwf; simp [putRoundsWF] at hwf; simp [hwf]
  | cons x rest ih =>
    intro rs p b hwf
    obtain ⟨hp, o, rs', hrs, hx, hrest⟩ := hwf
    have hplen : 1 ≤ p.length := by
      cases p with
      | nil => exact absurd rfl hp
      | cons a as => simp
    split at hrest
    case isTrue hemp =>
      have hres := ih _ _ _ hrest
      have honil : putResidual o = [] := List.isEmpty_iff.mp hemp
      subst hx
      simp only [List.map_cons, List.sum_cons, hres, List.length_drop, List.length_take,
        honil, List.length_nil]
      omega
    case isFalse hemp =>
      have hres := ih _ _ _ hrest
      subst hx
      simp only [List.map_cons, List.sum_cons, hres, List.length_append, List.length_drop,
        List.length_take]
      omega

/-- The consumed prefix of the backend script is exactly reflected in the
put trace: round `i` records script entry `i` as its outcome. -/
theorem putWF_script (cfg : BackoffCfg) (hasCallback : Bool) :
    ∀ (rounds : List (PutRound I)) rs p b, putRoundsWF cfg hasCallback rs p b rounds →
      rs.take rounds.length = rounds.map PutRound.outcome := by
  intro rounds
  induction rounds with
  | nil => intro rs p b _; simp
  | cons x rest ih =>
    intro rs p b hwf
    obtain ⟨hp, o, rs', hrs, hx, hrest⟩ := hwf
    subst hrs; subst hx
    simp only [List.length_cons, List.take_succ_cons, List.map_cons, List.cons.injEq]
    split at hrest
    · exact ⟨trivial, ih _ _ _ hrest⟩
    · exact ⟨trivial, ih _ _ _ hrest⟩

/-- The backoff variable stays within `[backoffInitial, backoffMax]`
throughout the put loop, for any sane configuration. -/
theorem putWF_bounds (cfg : BackoffCfg) (hasCallback : Bool)
    (him : cfg.backoffInitial ≤ cfg.backoffMax) (hf : 1 ≤ cfg.backoffFactor) :
    ∀ (rounds : List (PutRound I)) rs p b, putRoundsWF cfg hasCallback rs p b rounds →
      cfg.backoffInitial ≤ b → b ≤ cfg.backoffMax →
      ∀ r ∈ rounds, cfg.backoffInitial ≤ r.backoffBefore ∧ r.backoffBefore ≤ cfg.backoffMax := by
  intro rounds
  induction rounds with
  | nil => intro rs p b _ _ _ r hr; simp at hr
  | cons x rest ih =>
    intro rs p b hwf hlb hub r hr
    obtain ⟨hp, o, rs', hrs, hx, hrest⟩ := hwf
    rcases List.mem_cons.mp hr with hrx | hrx
    · subst hrx; subst hx; exact ⟨hlb, hub⟩
    · split at hrest
      · exact ih _ _ _ hrest le_rfl him r hrx
      · refine ih _ _ _ hrest ?_ ?_ r hrx
        · have : b ≤ b * cfg.backoffFactor := Nat.le_mul_of_pos_right b hf
          omega
        · omega

/-- Relation between two adjacent rounds of the put loop.  A round whose
outcome carried no residual — in particular a raised, caught error — does
not wait, resets the backoff, and hands over exactly the post-splice
remainder (its chunk is never re-enqueued); a residual round prepends the
residual and grows the backoff (capped). -/
theorem putWF_adjacent (cfg : BackoffCfg) (hasCallback : Bool) :
    ∀ (pre : List (PutRound I)) rs p b r r2 post,
      putRoundsWF cfg hasCallback rs p b (pre ++ r :: r2 :: post) →
      ((putResidual r.outcome) = [] →
        r.waited = none ∧ r2.backoffBefore = cfg.backoffInitial ∧
        r2.pendingBefore = r.pendingBefore.drop (min r.pendingBefore.length batchWriteLimit)) ∧
      ((putResidual r.outcome) ≠ [] →
        r.waited = some r.backoffBefore ∧
        r2.backoffBefore = min (r.backoffBefore * cfg.backoffFactor) cfg.backoffMax ∧
        r2.pendingBefore = (putResidual r.outcome) ++
          r.pendingBefore.drop (min r.pendingBefore.length batchWriteLimit)) := by
  intro pre
  induction pre with
  | nil =>
    intro rs p b r r2 post hwf
    obtain ⟨hp, o, rs', hrs, hx, hrest⟩ := hwf
    split at hrest
    case isTrue hemp =>
      obtain ⟨hp2, o2, rs2, hrs2, hx2, _⟩ := hrest
      constructor
      · intro _
        subst hx
        exact ⟨by simp [hemp], by rw [hx2], by rw [hx2]⟩
      · intro hres
        subst hx
        exact absurd (List.isEmpty_iff.mp hemp) hres
    case isFalse hemp =>
      obtain ⟨hp2, o2, rs2, hrs2, hx2, _⟩ := hrest
      constructor
      · intro hres
        rw [hx] at hres
        exact absurd (List.isEmpty_iff.mpr hres) hemp
      · intro _
        subst hx
        exact ⟨by simp [hemp], by rw [hx2], by rw [hx2]⟩
  | cons x pre' ih =>
    intro rs p b r r2 post hwf
    obtain ⟨hp, o, rs', hrs, hx, hrest⟩ := hwf
    split at hrest
    · exact ih _ _ _ _ _ _ hrest
    · exact ih _ _ _ _ _ _ hrest

/-- Splitting a put trace: the suffix after `pre` is itself a well-formed
trace, and when the last round of `pre` carried no residual the suffix
starts with `backoff = backoffInitial`. -/
theorem putWF_append (cfg : BackoffCfg) (hasCallback : Bool) :
    ∀ (pre : List (PutRound I)) rs p b suffix,
      putRoundsWF cfg hasCallback rs p b (pre ++ suffix) →
      ∃ rs2 p2 b2, putRoundsWF cfg hasCallback rs2 p2 b2 suffix ∧
        (pre = [] → rs2 = rs ∧ p2 = p ∧ b2 = b) ∧
        (∀ x, pre.getLast? = some x → putResidual x.outcome = [] →
          b2 = cfg.backoffInitial) := by
  intro pre
  induction pre with
  | nil =>
    intro rs p b suffix hwf
    exact ⟨rs, p, b, hwf, fun _ => ⟨rfl, rfl, rfl⟩, by simp⟩
  | cons x pre' ih =>
    intro rs p b suffix hwf
    obtain ⟨hp, o, rs', hrs, hx, hrest⟩ := hwf
    cases pre' with
    | nil =>
      split at hrest
      case isTrue hemp =>
        exact ⟨rs', _, cfg.backoffInitial, hrest, by simp, fun y hy _ => rfl⟩
      case isFalse hemp =>
        refine ⟨rs', _, _, hrest, by simp, ?_⟩
        intro y hy hres
        simp only [List.getLast?_singleton, Option.some.injEq] at hy
        subst hy
        rw [hx] at hres
        exact absurd (List.isEmpty_iff.mpr hres) hemp
    | cons z pre2 =>
      have hlast : (x :: z :: pre2).getLast? = (z :: pre2).getLast? := by
        rw [List.getLast?_cons_cons]
      split at hrest
      · obtain ⟨rs2, p2, b2, hwf2, _, hcond⟩ := ih _ _ _ _ hrest
        exact ⟨rs2, p2, b2, hwf2, by simp, by rw [hlast]; exact hcond⟩
      · obtain ⟨rs2, p2, b2, hwf2, _, hcond⟩ := ih _ _ _ _ hrest
        exact ⟨rs2, p2, b2, hwf2, by simp, by rw [hlast]; exact hcond⟩

/-- Wait sequence along a run of consecutive residual rounds in the put
loop (default configuration): if the streak starts with backoff value
`min (1000 * 2 ^ j) 30000`, its `i`-th round waits
`min (1000 * 2 ^ (j + i)) 30000` ms. -/
theorem putWF_streak (hasCallback : Bool) :
    ∀ (streak : List (PutRound I)) rs p (j : Nat) post,
      putRoundsWF defaultCfg hasCallback rs p (min (1000 * 2 ^ j) 30000) (streak ++ post) →
      (∀ r ∈ streak, putResidual r.outcome ≠ []) →
      streak.map PutRound.waited =
        (List.range streak.length).map (fun i => some (min (1000 * 2 ^ (j + i)) 30000)) := by
  intro streak
  induction streak with
  | nil => intro rs p j post _ _; simp
  | cons x rest ih =>
    intro rs p j post hwf hres
    obtain ⟨hp, o, rs', hrs, hx, hrest⟩ := hwf
    have hone : ¬ (putResidual o).isEmpty = true := by
      intro hemp
      apply hres x (List.mem_cons_self x rest)
      rw [hx]
      exact List.isEmpty_iff.mp hemp
    rw [if_neg hone] at hrest
    have hb2 : min (min (1000 * 2 ^ j) 30000 * defaultCfg.backoffFactor) defaultCfg.backoffMax
        = min (1000 * 2 ^ (j + 1)) 30000 := capStep j
    rw [hb2] at hrest
    have hIH := ih rs' _ (j + 1) post hrest (fun r hr => hres r (List.mem_cons_of_mem x hr))
    have hxw : x.waited = some (min (1000 * 2 ^ j) 30000) := by
      rw [hx]
      simp [if_neg hone]
    simp only [List.map_cons, List.length_cons, hxw, hIH, List.range_succ_eq_map,
      List.map_map, List.cons.injEq]
    refine ⟨by simp, ?_⟩
    apply List.map_congr_left
    intro i _
    have h2 : j + 1 + i = j + (i + 1) := by omega
    simp [Function.comp, h2]

/-! ## Error handling and termination helpers -/

/-- If every backend call of the put loop raises, the loop still resolves:
it performs exactly `⌈|units| / 25⌉` rounds, the submitted chunks
partition the seed queue in order (nothing is retried or re-enqueued), and
no round waits. -/
theorem putGo_allError (cfg : BackoffCfg) (hasCallback : Bool) :
    ∀ (rs : List (Except String (List (PutReq I)))) (p : List (PutReq I)) (b : Nat),
      (∀ x ∈ rs, ∃ s, x = .error s) →
      (p.length + (batchWriteLimit - 1)) / batchWriteLimit ≤ rs.length →
      ∃ rounds, batchPutAllGo cfg hasCallback rs p b = .ok (some rounds) ∧
        rounds.length = (p.length + (batchWriteLimit - 1)) / batchWriteLimit ∧
        (rounds.map PutRound.chunk).flatten = p ∧
        (∀ r ∈ rounds, r.waited = none ∧ ∃ s, r.outcome = .error s) := by
  intro rs
  induction rs with
  | nil =>
    intro p b _ hlen
    cases p with
    | nil =>
      refine ⟨[], by simp [batchPutAllGo], by simp [batchWriteLimit], by simp, by simp⟩
    | cons u us =>
      exfalso
      simp only [List.length_nil, Nat.le_zero, batchWriteLimit, List.length_cons] at hlen
      omega
  | cons x rest ih =>
    intro p b hall hlen
    cases p with
    | nil =>
      refine ⟨[], by simp [batchPutAllGo], by simp [batchWriteLimit], by simp, by simp⟩
    | cons u us =>
      obtain ⟨s, hs⟩ := hall x (List.mem_cons_self x rest)
      subst hs
      have hlen2 : (((u :: us).drop (min (u :: us).length batchWriteLimit)).length +
          (batchWriteLimit - 1)) / batchWriteLimit ≤ rest.length := by
        simp only [List.length_drop, List.length_cons, batchWriteLimit] at hlen ⊢
        omega
      obtain ⟨rounds2, hrun, hcount, hflat, hprops⟩ :=
        ih _ cfg.backoffInitial (fun y hy => hall y (List.mem_cons_of_mem _ hy)) hlen2
      refine ⟨⟨u :: us, (u :: us).take (min (u :: us).length batchWriteLimit),
        .error s, b, none,
        if hasCallback then
          some (Nat.repr ((u :: us).drop (min (u :: us).length batchWriteLimit)).length)
        else none⟩ :: rounds2, ?_, ?_, ?_, ?_⟩
      · simp only [batchPutAllGo, putResidual, List.isEmpty_nil, if_pos, hrun]
      · simp only [List.length_cons, hcount, List.length_drop, List.length_cons,
          batchWriteLimit] at *
        omega
      · simp only [List.map_cons, List.flatten_cons, hflat]
        exact List.take_append_drop _ _
      · intro r hr
        rcases List.mem_cons.mp hr with hrx | hrx
        · subst hrx
          exact ⟨rfl, s, rfl⟩
        · exact hprops r hrx

/-- An error raised by the backend inside the get loop is not caught: if
the loop is still running after consuming the responses `gs`, a backend
error on the next call propagates unchanged to the caller. -/
theorem getGo_reach_error (cfg : BackoffCfg) :
    ∀ (gs : List (GetResp K R)) (p : List K) (b : Nat) (e : String)
      (rest : List (Except String (GetResp K R))),
      batchGetAllGo cfg (gs.map Except.ok) p b = .ok none →
      batchGetAllGo cfg (gs.map Except.ok ++ Except.error e :: rest) p b = .error e := by
  intro gs
  induction gs with
  | nil =>
    intro p b e rest h
    cases p with
    | nil => simp [batchGetAllGo] at h
    | cons k ks => simp [batchGetAllGo]
  | cons g gs' ih =>
    intro p b e rest h
    cases p with
    | nil => simp [batchGetAllGo] at h
    | cons k ks =>
      simp only [List.map_cons, List.cons_append, batchGetAllGo, List.append_eq] at h ⊢
      by_cases hemp : g.unprocessedKeys.isEmpty
      · rw [if_pos hemp] at h ⊢
        cases hrec : batchGetAllGo cfg (gs'.map Except.ok)
            ((k :: ks).drop (min (k :: ks).length batchGetLimit)) cfg.backoffInitial with
        | error e2 => rw [hrec] at h; exact absurd h (by simp)
        | ok o =>
          cases o with
          | some t => rw [hrec] at h; exact absurd h (by simp)
          | none => rw [ih _ _ _ _ hrec]
      · rw [if_neg hemp] at h ⊢
        cases hrec : batchGetAllGo cfg (gs'.map Except.ok)
            (g.unprocessedKeys ++ (k :: ks).drop (min (k :: ks).length batchGetLimit))
            (min (b * cfg.backoffFactor) cfg.backoffMax) with
        | error e2 => rw [hrec] at h; exact absurd h (by simp)
        | ok o =>
          cases o with
          | some t => rw [hrec] at h; exact absurd h (by simp)
          | none => rw [ih _ _ _ _ hrec]

/-- Every error the get loop returns is an error of the backend script,
propagated as-is. -/
theorem getGo_error_src (cfg : BackoffCfg) :
    ∀ (rs : List (Except String (GetResp K R))) (p : List K) (b : Nat) (e : String),
      batchGetAllGo cfg rs p b = .error e → Except.error e ∈ rs := by
  intro rs
  induction rs with
  | nil =>
    intro p b e h
    cases p with
    | nil => simp [batchGetAllGo] at h
    | cons k ks => simp [batchGetAllGo] at h
  | cons resp rest ih =>
    intro p b e h
    cases p with
    | nil => simp [batchGetAllGo] at h
    | cons k ks =>
      simp only [batchGetAllGo] at h
      cases resp with
      | error e2 =>
        simp only [Except.error.injEq] at h
        subst h
        exact List.mem_cons_self _ _
      | ok g =>
        simp only at h
        by_cases hemp : g.unprocessedKeys.isEmpty
        · rw [if_pos hemp] at h
          cases hrec : batchGetAllGo cfg rest
              ((k :: ks).drop (min (k :: ks).length batchGetLimit)) cfg.backoffInitial with
          | error e2 =>
            rw [hrec] at h
            simp only [Except.error.injEq] at h
            subst h
            exact List.mem_cons_of_mem _ (ih _ _ _ hrec)
          | ok o =>
            cases o with
            | none => rw [hrec] at h; exact absurd h (by simp)
            | some t => rw [hrec] at h; exact absurd h (by simp)
        · rw [if_neg hemp] at h
          cases hrec : batchGetAllGo cfg rest
              (g.unprocessedKeys ++ (k :: ks).drop (min (k :: ks).length batchGetLimit))
              (min (b * cfg.backoffFactor) cfg.backoffMax) with
          | error e2 =>
            rw [hrec] at h
            simp only [Except.error.injEq] at h
            subst h
            exact List.mem_cons_of_mem _ (ih _ _ _ hrec)
          | ok o =>
            cases o with
            | none => rw [hrec] at h; exact absurd h (by simp)
            | some t => rw [hrec] at h; exact absurd h (by simp)

/-- An error raised by the backend inside the scan loop is not caught: if
the walker is still following cursors after consuming the responses `gs`,
a backend error on the next call propagates unchanged to the caller. -/
theorem scanGo_reach_error :
    ∀ (gs : List (ScanResp C R)) (cur : Option C) (e : String)
      (rest : List (Except String (ScanResp C R))),
      batchScanAllGo (gs.map Except.ok) cur = .ok none →
      batchScanAllGo (gs.map Except.ok ++ Except.error e :: rest) cur = .error e := by
  intro gs
  induction gs with
  | nil => intro cur e rest _; rfl
  | cons g gs' ih =>
    intro cur e rest h
    obtain ⟨items, key⟩ := g
    cases key with
    | none => simp [batchScanAllGo] at h
    | some c =>
      simp only [List.map_cons, List.cons_append, batchScanAllGo, List.append_eq] at h ⊢
      cases hrec : batchScanAllGo (gs'.map Except.ok) (some c) with
      | error e2 => rw [hrec] at h; exact absurd h (by simp)
      | ok o =>
        cases o with
        | some t => rw [hrec] at h; exact absurd h (by simp)
        | none => rw [ih _ _ _ hrec]

/-- Every error the scan walker returns is an error of the backend script,
propagated as-is. -/
theorem scanGo_error_src :
    ∀ (rs : List (Except String (ScanResp C R))) (cur : Option C) (e : String),
      batchScanAllGo rs cur = .error e → Except.error e ∈ rs := by
  intro rs
  induction rs with
  | nil => intro cur e h; simp [batchScanAllGo] at h
  | cons resp rest ih =>
    intro cur e h
    cases resp with
    | error e2 =>
      simp only [batchScanAllGo, Except.error.injEq] at h
      subst h
      exact List.mem_cons_self _ _
    | ok g =>
      obtain ⟨items, key⟩ := g
      cases key with
      | none => simp [batchScanAllGo] at h
      | some c =>
        simp only [batchScanAllGo] at h
        cases hrec : batchScanAllGo rest (some c) with
        | error e2 =>
          rw [hrec] at h
          simp only [Except.error.injEq] at h
          subst h
          exact List.mem_cons_of_mem _ (ih _ _ hrec)
        | ok o =>
          cases o with
          | none => rw [hrec] at h; exact absurd h (by simp)
          | some t => rw [hrec] at h; exact absurd h (by simp)

/-- Exhaustion of the scan walker: on a script of cursor-carrying pages
followed by one cursor-free page, the walker performs one call per page,
passes each returned cursor into the next call, returns the concatenation
of all page contents, and stops with the cursor-free response. -/
theorem scanGo_exhaust :
    ∀ (pages : List (List R × C)) (last : List R) (cur : Option C),
      ∃ t, batchScanAllGo
          (pages.map (fun pc => Except.ok ⟨pc.1, some pc.2⟩) ++ [Except.ok ⟨last, none⟩]) cur =
          .ok (some t) ∧
        t.results = (pages.map Prod.fst).flatten ++ last ∧
        t.rounds.length = pages.length + 1 ∧
        t.rounds.map ScanRound.cursorUsed = cur :: pages.map (fun pc => some pc.2) ∧
        t.rounds.map ScanRound.nextCursor = pages.map (fun pc => some pc.2) ++ [none] := by
  intro pages
  induction pages with
  | nil =>
    intro last cur
    exact ⟨⟨last, [⟨cur, last, none⟩]⟩, rfl, by simp, rfl, rfl, rfl⟩
  | cons pc pages' ih =>
    intro last cur
    obtain ⟨t, hrun, hres, hlen, hcur, hnext⟩ := ih last (some pc.2)
    refine ⟨⟨pc.1 ++ t.results, ⟨cur, pc.1, some pc.2⟩ :: t.rounds⟩, ?_, ?_, ?_, ?_, ?_⟩
    · simp only [List.map_cons, List.cons_append, batchScanAllGo, List.append_eq, hrun]
    · simp [hres]
    · simp [hlen]
    · simp [hcur]
    · simp [hnext]

/-- `batchGetAll` on a single-table request runs the loop on that table's
keys with `backoff = backoffInitial`. -/
theorem batchGetAll_single (cfg : BackoffCfg) (script : List (Except String (GetResp K R)))
    (tbl : String) (ka : KeysAndAttributes K) :
    batchGetAll cfg script ⟨some [(tbl, ka)]⟩ =
      batchGetAllGo cfg script ka.keys cfg.backoffInitial := rfl

/-- If `l.filterMap f` is applied where `f` is `some ∘ g` pointwise on `l`,
it is just `l.map g`. -/
theorem filterMap_all_some {α β : Type} (f : α → Option β) (g : α → β) :
    ∀ l : List α, (∀ x ∈ l, f x = some (g x)) → l.filterMap f = l.map g := by
  intro l
  induction l with
  | nil => intro _; rfl
  | cons a l ih =>
    intro h
    rw [List.filterMap_cons, h a (List.mem_cons_self a l), List.map_cons,
      ih (fun x hx => h x (List.mem_cons_of_mem a hx))]

/-- A resolved `batchPutAll` call is a resolved run of the put loop on the
wrapped items, and its callback history is the start marker (when a
callback was given) followed by the per-round count strings. -/
theorem batchPutAll_run (cfg : BackoffCfg) (script : List (Except String (List (PutReq I))))
    (table : String) (items : List I) (hasCallback : Bool) (t : PutTrace I) :
    batchPutAll cfg script table items hasCallback = .ok (some t) →
    batchPutAllGo cfg hasCallback script (items.map (fun it => ⟨it⟩)) cfg.backoffInitial =
        .ok (some t.rounds) ∧
      t.log = (if hasCallback then ["starting batch write"] else []) ++
        t.rounds.filterMap PutRound.logged := by
  intro h
  simp only [batchPutAll, batchPutAllCore, putInput] at h
  cases hrec : batchPutAllGo cfg hasCallback script (items.map (fun it => ⟨it⟩))
      cfg.backoffInitial with
  | error e => rw [hrec] at h; exact absurd h (by simp)
  | ok o =>
    cases o with
    | none => rw [hrec] at h; exact absurd h (by simp)
    | some rounds =>
      rw [hrec] at h
      cases h
      exact ⟨rfl, rfl⟩

/-! ## Claim theorems -/

/-- C10: a present-but-empty `RequestItems` map (zero table names) makes
`batchGetAll` throw the single-table error before any backend call (the
guard demands exactly one table, rejecting zero as well as two or more),
whereas an absent `RequestItems` returns an empty result instead. -/
theorem c10_empty_request_items :
    ∀ (K R : Type) (cfg : BackoffCfg) (script script2 : List (Except String (GetResp K R))),
      batchGetAll cfg script (⟨some []⟩ : BatchGetInput K) =
        .error "Only batchGet from a single table at a time is supported in this method." ∧
      batchGetAll cfg script2 (⟨none⟩ : BatchGetInput K) = .ok (some ⟨[], []⟩) := by
  intro K R cfg script script2
  exact ⟨rfl, rfl⟩

/-- C4: a get request whose `RequestItems` map names two or more tables
fails with the unsupported-multi-table error, for every backend script
(including the empty one — so before any backend call); the write path
applies the same guard to the map it builds, which rejects any map with
two or more tables, but `batchPutAll` always builds a one-table map. -/
theorem c4_multi_table_rejected :
    (∀ (K R : Type) (cfg : BackoffCfg) (script : List (Except String (GetResp K R)))
      (tables : List (String × KeysAndAttributes K)),
      2 ≤ tables.length →
      batchGetAll cfg script ⟨some tables⟩ =
        .error "Only batchGet from a single table at a time is supported in this method.") ∧
    (∀ (I : Type) (cfg : BackoffCfg) (script : List (Except String (List (PutReq I))))
      (input : List (String × List (PutReq I))) (hasCallback : Bool),
      2 ≤ input.length →
      batchPutAllCore cfg script input hasCallback =
        .error "Only batchWrite to a single table at a time is supported in this method.") ∧
    (∀ (I : Type) (table : String) (items : List I), (putInput table items).length = 1) := by
  refine ⟨?_, ?_, ?_⟩
  · intro K R cfg script tables hlen
    match tables with
    | [] => simp at hlen
    | [x] => simp at hlen
    | x :: y :: rest => rfl
  · intro I cfg script input hasCallback hlen
    match input with
    | [] => simp at hlen
    | [x] => simp at hlen
    | x :: y :: rest => rfl
  · intro I table items
    rfl

theorem c4_multi_table_rejected_witness :
    batchGetAll (K := Nat) (R := Nat) defaultCfg []
        ⟨some [("A", ⟨[1]⟩), ("B", ⟨[2]⟩)]⟩ =
      .error "Only batchGet from a single table at a time is supported in this method." ∧
    batchPutAllCore (I := Nat) defaultCfg [] [("A", [⟨1⟩]), ("B", [⟨2⟩])] false =
      .error "Only batchWrite to a single table at a time is supported in this method." ∧
    (putInput "A" [1, 2, 3]).length = 1 :=
  ⟨c4_multi_table_rejected.1 Nat Nat defaultCfg [] _ (by decide),
   c4_multi_table_rejected.2.1 Nat defaultCfg [] _ false (by decide),
   c4_multi_table_rejected.2.2 Nat "A" [1, 2, 3]⟩

/-- C6: `batchScanAll` follows continuation cursors to exhaustion — one
call per response page, every record of every response appended, each
round after the first receiving the previous response's cursor, stopping
exactly on the first absent cursor; in particular a backend answering with
cursors `c1, c2, absent` and `10, 10, 5` records yields exactly 3 calls
and 25 records. -/
theorem c6_scan_exhaustion :
    (∀ (C R : Type) (pages : List (List R × C)) (last : List R),
      ∃ t, batchScanAll
          (pages.map (fun pc => Except.ok ⟨pc.1, some pc.2⟩) ++ [Except.ok ⟨last, none⟩]) =
          .ok (some t) ∧
        t.results = (pages.map Prod.fst).flatten ++ last ∧
        t.rounds.length = pages.length + 1 ∧
        t.rounds.map ScanRound.cursorUsed = none :: pages.map (fun pc => some pc.2) ∧
        t.rounds.map ScanRound.nextCursor = pages.map (fun pc => some pc.2) ++ [none]) ∧
    (∀ (C R : Type) (r1 r2 r3 : List R) (c1 c2 : C),
      r1.length = 10 → r2.length = 10 → r3.length = 5 →
      ∃ t, batchScanAll
          [Except.ok ⟨r1, some c1⟩, Except.ok ⟨r2, some c2⟩, Except.ok ⟨r3, none⟩] =
          .ok (some t) ∧
        t.results.length = 25 ∧
        t.rounds.length = 3 ∧
        t.rounds.map ScanRound.cursorUsed = [none, some c1, some c2]) := by
  constructor
  · intro C R pages last
    exact scanGo_exhaust pages last none
  · intro C R r1 r2 r3 c1 c2 h1 h2 h3
    obtain ⟨t, hrun, hres, hlen, hcur, _⟩ :=
      scanGo_exhaust (C := C) (R := R) [(r1, c1), (r2, c2)] r3 none
    refine ⟨t, ?_, ?_, ?_, ?_⟩
    · simpa using hrun
    · rw [hres]
      simp [h1, h2, h3]
    · simpa using hlen
    · simpa using hcur

theorem c6_scan_exhaustion_witness :
    ∃ t : ScanTrace Nat Nat,
      batchScanAll
        [Except.ok ⟨List.range 10, some 777⟩, Except.ok ⟨List.range 10, some 888⟩,
          Except.ok ⟨List.range 5, none⟩] = .ok (some t) ∧
      t.results.length = 25 ∧
      t.rounds.length = 3 ∧
      t.rounds.map ScanRound.cursorUsed = [none, some 777, some 888] :=
  c6_scan_exhaustion.2 Nat Nat (List.range 10) (List.range 10) (List.range 5) 777 888
    (by decide) (by decide) (by decide)

/-- C7: in the get loop and in the scan walker, an error raised by the
backend is not caught: whenever the loop is still running, a raising
backend call makes the whole bulk operation return that very error (no
partial result), and conversely every error these operations return is a
backend error propagated unchanged. -/
theorem c7_get_scan_errors_propagate :
    (∀ (K R : Type) (cfg : BackoffCfg) (gs : List (GetResp K R)) (tbl : String)
      (ks : List K) (e : String) (rest : List (Except String (GetResp K R))),
      batchGetAll cfg (gs.map Except.ok) ⟨some [(tbl, ⟨ks⟩)]⟩ = .ok none →
      batchGetAll cfg (gs.map Except.ok ++ Except.error e :: rest)
        ⟨some [(tbl, ⟨ks⟩)]⟩ = .error e) ∧
    (∀ (K R : Type) (cfg : BackoffCfg) (script : List (Except String (GetResp K R)))
      (tbl : String) (ks : List K) (e : String),
      batchGetAll cfg script ⟨some [(tbl, ⟨ks⟩)]⟩ = .error e →
      Except.error e ∈ script) ∧
    (∀ (C R : Type) (gs : List (ScanResp C R)) (e : String)
      (rest : List (Except String (ScanResp C R))),
      batchScanAll (gs.map Except.ok) = .ok none →
      batchScanAll (gs.map Except.ok ++ Except.error e :: rest) = .error e) ∧
    (∀ (C R : Type) (script : List (Except String (ScanResp C R))) (e : String),
      batchScanAll script = .error e → Except.error e ∈ script) := by
  refine ⟨?_, ?_, ?_, ?_⟩
  · intro K R cfg gs tbl ks e rest h
    rw [batchGetAll_single] at h ⊢
    exact getGo_reach_error cfg gs ks cfg.backoffInitial e rest h
  · intro K R cfg script tbl ks e h
    rw [batchGetAll_single] at h
    exact getGo_error_src cfg script ks cfg.backoffInitial e h
  · intro C R gs e rest h
    exact scanGo_reach_error gs none e rest h
  · intro C R script e h
    exact scanGo_error_src script none e h

theorem c7_get_scan_errors_propagate_witness :
    batchGetAll (K := Nat) (R := Nat) defaultCfg [Except.error "boom"]
        ⟨some [("T", ⟨[1]⟩)]⟩ = .error "boom" ∧
    batchScanAll (C := Nat) (R := Nat) [Except.error "crash"] = .error "crash" := by
  constructor
  · exact c7_get_scan_errors_propagate.1 Nat Nat defaultCfg [] "T" [1] "boom" [] (by rfl)
  · exact c7_get_scan_errors_propagate.2.2.1 Nat Nat [] "crash" [] (by rfl)

/-- C2: a resolved single-table `batchGetAll` on `n` keys performs at
least `⌈n / 100⌉` backend calls — exactly that many when no round reports
a residual — each chunk holding `min(pending, 100)` keys, and returns
exactly the concatenation of the record lists the backend returned across
all rounds. -/
theorem c2_get_chunking_and_results :
    ∀ (K R : Type) (cfg : BackoffCfg) (script : List (Except String (GetResp K R)))
      (tbl : String) (ks : List K) (t : GetTrace K R),
      batchGetAll cfg script ⟨some [(tbl, ⟨ks⟩)]⟩ = .ok (some t) →
      ((ks.length + 99) / 100 ≤ t.rounds.length) ∧
      ((∀ r ∈ t.rounds, r.residual = []) → t.rounds.length = (ks.length + 99) / 100) ∧
      (∀ r ∈ t.rounds, r.chunk.length = min r.pendingBefore.length batchGetLimit) ∧
      (∃ gs : List (GetResp K R), script.take t.rounds.length = gs.map Except.ok ∧
        t.results = (gs.map GetResp.responses).flatten) := by
  intro K R cfg script tbl ks t h
  rw [batchGetAll_single] at h
  obtain ⟨hwf, hres⟩ := getGo_sound cfg script ks cfg.backoffInitial t h
  have hmem := getWF_mem cfg t.rounds script ks cfg.backoffInitial hwf
  refine ⟨?_, ?_, ?_, ?_⟩
  · have hacc := getWF_account cfg t.rounds script ks cfg.backoffInitial hwf
    have hbound : (t.rounds.map (fun r => r.chunk.length)).sum ≤ t.rounds.length * 100 := by
      have hle := List.sum_le_card_nsmul (t.rounds.map (fun r => r.chunk.length)) 100 ?_
      · simpa [smul_eq_mul] using hle
      · intro x hx
        obtain ⟨r, hr, hxr⟩ := List.mem_map.mp hx
        have := (hmem r hr).2.2.1
        subst hxr
        rw [this]
        exact Nat.min_le_right _ _
    omega
  · intro hnores
    have := getWF_noResidual_length cfg t.rounds script ks cfg.backoffInitial hwf hnores
    simpa [batchGetLimit] using this
  · intro r hr
    exact (hmem r hr).2.2.1
  · refine ⟨t.rounds.map (fun r => ⟨r.got, r.residual⟩), ?_, ?_⟩
    · rw [getWF_script cfg t.rounds script ks cfg.backoffInitial hwf, List.map_map]
      rfl
    · rw [hres, List.map_map]
      rfl

theorem c2_get_chunking_and_results_witness :
    ∃ t : GetTrace Nat Nat,
      batchGetAll defaultCfg [Except.ok ⟨[5], [7]⟩, Except.ok ⟨[9], []⟩]
        ⟨some [("T", ⟨[1]⟩)]⟩ = .ok (some t) ∧
      (1 + 99) / 100 ≤ t.rounds.length ∧
      (∀ r ∈ t.rounds, r.chunk.length = min r.pendingBefore.length batchGetLimit) ∧
      ∃ gs : List (GetResp Nat Nat),
        ([Except.ok ⟨[5], [7]⟩, Except.ok ⟨[9], []⟩] :
          List (Except String (GetResp Nat Nat))).take t.rounds.length = gs.map Except.ok ∧
        t.results = (gs.map GetResp.responses).flatten := by
  refine ⟨⟨[5, 9],
    [⟨[1], [1], [5], [7], 1000, some 1000⟩, ⟨[7], [7], [9], [], 2000, none⟩]⟩, rfl, ?_⟩
  obtain ⟨h1, _, h3, h4⟩ := c2_get_chunking_and_results Nat Nat defaultCfg
    [Except.ok ⟨[5], [7]⟩, Except.ok ⟨[9], []⟩] "T" [1] _ rfl
  exact ⟨h1, h3, h4⟩

/-- C5: chunk accounting and key conservation.  For a resolved get or put
bulk call, the chunk sizes summed over all rounds equal the original unit
count plus the total size of the residual re-submissions; for get, every
original key is either submitted in some earlier chunk or still present in
the current pending queue at every round (and in a finished run every key
was submitted), and a reported residual is prepended to the front of the
remaining queue. -/
theorem c5_chunk_accounting_no_loss :
    (∀ (K R : Type) (cfg : BackoffCfg) (script : List (Except String (GetResp K R)))
      (tbl : String) (ks : List K) (t : GetTrace K R),
      batchGetAll cfg script ⟨some [(tbl, ⟨ks⟩)]⟩ = .ok (some t) →
      ((t.rounds.map (fun r => r.chunk.length)).sum =
        ks.length + (t.rounds.map (fun r => r.residual.length)).sum) ∧
      (∀ k ∈ ks, ∃ r ∈ t.rounds, k ∈ r.chunk) ∧
      (∀ (pre : List (GetRound K R)) (r : GetRound K R) (post : List (GetRound K R)),
        t.rounds = pre ++ r :: post → ∀ k ∈ ks,
        (∃ x ∈ pre, k ∈ x.chunk) ∨ k ∈ r.pendingBefore) ∧
      (∀ (pre : List (GetRound K R)) (r r2 : GetRound K R) (post : List (GetRound K R)),
        t.rounds = pre ++ r :: r2 :: post → r.residual ≠ [] →
        r2.pendingBefore =
          r.residual ++ r.pendingBefore.drop (min r.pendingBefore.length batchGetLimit))) ∧
    (∀ (I : Type) (cfg : BackoffCfg) (script : List (Except String (List (PutReq I))))
      (table : String) (items : List I) (hasCallback : Bool) (t : PutTrace I),
      batchPutAll cfg script table items hasCallback = .ok (some t) →
      (t.rounds.map (fun r => r.chunk.length)).sum =
        items.length + (t.rounds.map (fun r => (putResidual r.outcome).length)).sum) := by
  constructor
  · intro K R cfg script tbl ks t h
    rw [batchGetAll_single] at h
    obtain ⟨hwf, _⟩ := getGo_sound cfg script ks cfg.backoffInitial t h
    refine ⟨getWF_account cfg t.rounds script ks cfg.backoffInitial hwf,
      getWF_noloss cfg t.rounds script ks cfg.backoffInitial hwf, ?_, ?_⟩
    · intro pre r post heq k hk
      rw [heq] at hwf
      exact getWF_invariant cfg pre script ks cfg.backoffInitial r post hwf k hk
    · intro pre r r2 post heq hresid
      rw [heq] at hwf
      exact ((getWF_adjacent cfg pre script ks cfg.backoffInitial r r2 post hwf).2 hresid).2.2
  · intro I cfg script table items hasCallback t h
    obtain ⟨hrun, _⟩ := batchPutAll_run cfg script table items hasCallback t h
    have hwf := putGo_sound cfg hasCallback script (items.map (fun it => ⟨it⟩))
      cfg.backoffInitial t.rounds hrun
    have hacc := putWF_account cfg hasCallback t.rounds script
      (items.map (fun it => ⟨it⟩)) cfg.backoffInitial hwf
    simpa using hacc

theorem c5_chunk_accounting_no_loss_witness :
    ((([⟨[1], [1], [5], [7], 1000, some 1000⟩, ⟨[7], [7], [9], [], 2000, none⟩] :
        List (GetRound Nat Nat)).map (fun r => r.chunk.length)).sum =
      ([1] : List Nat).length +
        (([⟨[1], [1], [5], [7], 1000, some 1000⟩, ⟨[7], [7], [9], [], 2000, none⟩] :
          List (GetRound Nat Nat)).map (fun r => r.residual.length)).sum) ∧
    (∀ k ∈ ([1] : List Nat),
      ∃ r ∈ ([⟨[1], [1], [5], [7], 1000, some 1000⟩, ⟨[7], [7], [9], [], 2000, none⟩] :
        List (GetRound Nat Nat)), k ∈ r.chunk) := by
  obtain ⟨h1, h2, _, _⟩ := c5_chunk_accounting_no_loss.1 Nat Nat defaultCfg
    [Except.ok ⟨[5], [7]⟩, Except.ok ⟨[9], []⟩] "T" [1]
    ⟨[5, 9], [⟨[1], [1], [5], [7], 1000, some 1000⟩, ⟨[7], [7], [9], [], 2000, none⟩]⟩ rfl
  exact ⟨h1, h2⟩

/-- C8: throughout a resolved get or put bulk call under any sane
configuration (`backoffInitial ≤ backoffMax`, `backoffFactor ≥ 1`), the
backoff variable stays within `[backoffInitial, backoffMax]`, and it is
reset to `backoffInitial` whenever a round reports zero unprocessed
residual. -/
theorem c8_backoff_invariant :
    ∀ (cfg : BackoffCfg), cfg.backoffInitial ≤ cfg.backoffMax → 1 ≤ cfg.backoffFactor →
    (∀ (K R : Type) (script : List (Except String (GetResp K R)))
      (tbl : String) (ks : List K) (t : GetTrace K R),
      batchGetAll cfg script ⟨some [(tbl, ⟨ks⟩)]⟩ = .ok (some t) →
      (∀ r ∈ t.rounds,
        cfg.backoffInitial ≤ r.backoffBefore ∧ r.backoffBefore ≤ cfg.backoffMax) ∧
      (∀ (pre : List (GetRound K R)) (r r2 : GetRound K R) (post : List (GetRound K R)),
        t.rounds = pre ++ r :: r2 :: post → r.residual = [] →
        r2.backoffBefore = cfg.backoffInitial)) ∧
    (∀ (I : Type) (script : List (Except String (List (PutReq I))))
      (table : String) (items : List I) (hasCallback : Bool) (t : PutTrace I),
      batchPutAll cfg script table items hasCallback = .ok (some t) →
      (∀ r ∈ t.rounds,
        cfg.backoffInitial ≤ r.backoffBefore ∧ r.backoffBefore ≤ cfg.backoffMax) ∧
      (∀ (pre : List (PutRound I)) (r r2 : PutRound I) (post : List (PutRound I)),
        t.rounds = pre ++ r :: r2 :: post → putResidual r.outcome = [] →
        r2.backoffBefore = cfg.backoffInitial)) := by
  intro cfg him hf
  constructor
  · intro K R script tbl ks t h
    rw [batchGetAll_single] at h
    obtain ⟨hwf, _⟩ := getGo_sound cfg script ks cfg.backoffInitial t h
    constructor
    · exact getWF_bounds cfg him hf t.rounds script ks cfg.backoffInitial hwf le_rfl him
    · intro pre r r2 post heq hresid
      rw [heq] at hwf
      exact ((getWF_adjacent cfg pre script ks cfg.backoffInitial r r2 post hwf).1 hresid).2.1
  · intro I script table items hasCallback t h
    obtain ⟨hrun, _⟩ := batchPutAll_run cfg script table items hasCallback t h
    have hwf := putGo_sound cfg hasCallback script (items.map (fun it => ⟨it⟩))
      cfg.backoffInitial t.rounds hrun
    constructor
    · exact putWF_bounds cfg hasCallback him hf t.rounds script _ cfg.backoffInitial hwf
        le_rfl him
    · intro pre r r2 post heq hresid
      rw [heq] at hwf
      exact ((putWF_adjacent cfg hasCallback pre script _ cfg.backoffInitial r r2 post
        hwf).1 hresid).2.1

theorem c8_backoff_invariant_witness :
    defaultCfg.backoffInitial ≤
        (⟨[7], [7], [9], [], 2000, none⟩ : GetRound Nat Nat).backoffBefore ∧
      (⟨[7], [7], [9], [], 2000, none⟩ : GetRound Nat Nat).backoffBefore ≤
        defaultCfg.backoffMax := by
  obtain ⟨h1, _⟩ := (c8_backoff_invariant defaultCfg (by decide) (by decide)).1 Nat Nat
    [Except.ok ⟨[5], [7]⟩, Except.ok ⟨[9], []⟩] "T" [1]
    ⟨[5, 9], [⟨[1], [1], [5], [7], 1000, some 1000⟩, ⟨[7], [7], [9], [], 2000, none⟩]⟩ rfl
  exact h1 ⟨[7], [7], [9], [], 2000, none⟩ (by simp)

/-- C1: with the default settings `initial=1000, max=30000, factor=2`, a
maximal run of consecutive rounds with residual (starting at the
beginning of the call or right after a residual-free round) waits
`min(1000·2^j, 30000)` ms at its `j`-th round — that is
`1000, 2000, 4000, 8000, 16000` for the first five and `30000` (capped)
from the sixth on — while a residual-free round emits no wait and resets
the next round's backoff to `1000`; this holds for both get and put bulk
calls. -/
theorem c1_backoff_wait_sequence :
    ((List.range 6).map (fun j => min (1000 * 2 ^ j) 30000) =
      [1000, 2000, 4000, 8000, 16000, 30000]) ∧
    (∀ j, 5 ≤ j → min (1000 * 2 ^ j) 30000 = 30000) ∧
    (∀ (K R : Type) (script : List (Except String (GetResp K R))) (tbl : String)
      (ks : List K) (t : GetTrace K R),
      batchGetAll defaultCfg script ⟨some [(tbl, ⟨ks⟩)]⟩ = .ok (some t) →
      (∀ (pre streak post : List (GetRound K R)),
        t.rounds = pre ++ (streak ++ post) →
        (pre = [] ∨ ∃ x, pre.getLast? = some x ∧ x.residual = []) →
        (∀ r ∈ streak, r.residual ≠ []) →
        streak.map GetRound.waited =
          (List.range streak.length).map (fun j => some (min (1000 * 2 ^ j) 30000))) ∧
      (∀ r ∈ t.rounds, r.residual = [] → r.waited = none) ∧
      (∀ (pre : List (GetRound K R)) (r r2 : GetRound K R) (post : List (GetRound K R)),
        t.rounds = pre ++ r :: r2 :: post → r.residual = [] →
        r2.backoffBefore = 1000)) ∧
    (∀ (I : Type) (script : List (Except String (List (PutReq I)))) (table : String)
      (items : List I) (hasCallback : Bool) (t : PutTrace I),
      batchPutAll defaultCfg script table items hasCallback = .ok (some t) →
      (∀ (pre streak post : List (PutRound I)),
        t.rounds = pre ++ (streak ++ post) →
        (pre = [] ∨ ∃ x, pre.getLast? = some x ∧ putResidual x.outcome = []) →
        (∀ r ∈ streak, putResidual r.outcome ≠ []) →
        streak.map PutRound.waited =
          (List.range streak.length).map (fun j => some (min (1000 * 2 ^ j) 30000))) ∧
      (∀ r ∈ t.rounds, putResidual r.outcome = [] → r.waited = none) ∧
      (∀ (pre : List (PutRound I)) (r r2 : PutRound I) (post : List (PutRound I)),
        t.rounds = pre ++ r :: r2 :: post → putResidual r.outcome = [] →
        r2.backoffBefore = 1000)) := by
  refine ⟨by decide, capTail, ?_, ?_⟩
  · intro K R script tbl ks t h
    rw [batchGetAll_single] at h
    obtain ⟨hwf, _⟩ := getGo_sound defaultCfg script ks defaultCfg.backoffInitial t h
    refine ⟨?_, ?_, ?_⟩
    · intro pre streak post heq hpre hres
      rw [heq] at hwf
      obtain ⟨rs2, p2, b2, hwf2, hnil, hlast⟩ := getWF_append defaultCfg pre script ks
        defaultCfg.backoffInitial (streak ++ post) hwf
      have hb2 : b2 = min (1000 * 2 ^ 0) 30000 := by
        have h1000 : b2 = 1000 := by
          rcases hpre with hpre | ⟨x, hx, hxres⟩
          · exact (hnil hpre).2.2
          · exact hlast x hx hxres
        rw [h1000]
        decide
      rw [hb2] at hwf2
      have hstreak := getWF_streak streak rs2 p2 0 post hwf2 hres
      rw [hstreak]
      apply List.map_congr_left
      intro i _
      rw [Nat.zero_add]
    · intro r hr hresid
      have := (getWF_mem defaultCfg t.rounds script ks defaultCfg.backoffInitial hwf r hr).2.2.2
      rw [this, hresid]
      rfl
    · intro pre r r2 post heq hresid
      rw [heq] at hwf
      exact ((getWF_adjacent defaultCfg pre script ks defaultCfg.backoffInitial r r2 post
        hwf).1 hresid).2.1
  · intro I script table items hasCallback t h
    obtain ⟨hrun, _⟩ := batchPutAll_run defaultCfg script table items hasCallback t h
    have hwf := putGo_sound defaultCfg hasCallback script (items.map (fun it => ⟨it⟩))
      defaultCfg.backoffInitial t.rounds hrun
    refine ⟨?_, ?_, ?_⟩
    · intro pre streak post heq hpre hres
      rw [heq] at hwf
      obtain ⟨rs2, p2, b2, hwf2, hnil, hlast⟩ := putWF_append defaultCfg hasCallback pre
        script _ defaultCfg.backoffInitial (streak ++ post) hwf
      have hb2 : b2 = min (1000 * 2 ^ 0) 30000 := by
        have h1000 : b2 = 1000 := by
          rcases hpre with hpre | ⟨x, hx, hxres⟩
          · exact (hnil hpre).2.2
          · exact hlast x hx hxres
        rw [h1000]
        decide
      rw [hb2] at hwf2
      have hstreak := putWF_streak hasCallback streak rs2 p2 0 post hwf2 hres
      rw [hstreak]
      apply List.map_congr_left
      intro i _
      rw [Nat.zero_add]
    · intro r hr hresid
      have := (putWF_mem defaultCfg hasCallback t.rounds script _ defaultCfg.backoffInitial
        hwf r hr).2.2.2.1
      rw [this, hresid]
      rfl
    · intro pre r r2 post heq hresid
      rw [heq] at hwf
      exact ((putWF_adjacent defaultCfg hasCallback pre script _ defaultCfg.backoffInitial
        r r2 post hwf).1 hresid).2.1

theorem c1_backoff_wait_sequence_witness :
    ([⟨[3], [3], [], [0], 1000, some 1000⟩, ⟨[0], [0], [], [0], 2000, some 2000⟩,
      ⟨[0], [0], [], [0], 4000, some 4000⟩, ⟨[0], [0], [], [0], 8000, some 8000⟩,
      ⟨[0], [0], [], [0], 16000, some 16000⟩, ⟨[0], [0], [], [0], 30000, some 30000⟩,
      ⟨[0], [0], [], [0], 30000, some 30000⟩] : List (GetRound Nat Nat)).map
        GetRound.waited =
      [some 1000, some 2000, some 4000, some 8000, some 16000, some 30000, some 30000] := by
  have h := (c1_backoff_wait_sequence.2.2.1 Nat Nat
    [Except.ok ⟨[], [0]⟩, Except.ok ⟨[], [0]⟩, Except.ok ⟨[], [0]⟩, Except.ok ⟨[], [0]⟩,
      Except.ok ⟨[], [0]⟩, Except.ok ⟨[], [0]⟩, Except.ok ⟨[], [0]⟩, Except.ok ⟨[1], []⟩]
    "T" [3]
    ⟨[1],
      [⟨[3], [3], [], [0], 1000, some 1000⟩, ⟨[0], [0], [], [0], 2000, some 2000⟩,
       ⟨[0], [0], [], [0], 4000, some 4000⟩, ⟨[0], [0], [], [0], 8000, some 8000⟩,
       ⟨[0], [0], [], [0], 16000, some 16000⟩, ⟨[0], [0], [], [0], 30000, some 30000⟩,
       ⟨[0], [0], [], [0], 30000, some 30000⟩, ⟨[0], [0], [1], [], 30000, none⟩]⟩
    (by decide)).1 []
    [⟨[3], [3], [], [0], 1000, some 1000⟩, ⟨[0], [0], [], [0], 2000, some 2000⟩,
     ⟨[0], [0], [], [0], 4000, some 4000⟩, ⟨[0], [0], [], [0], 8000, some 8000⟩,
     ⟨[0], [0], [], [0], 16000, some 16000⟩, ⟨[0], [0], [], [0], 30000, some 30000⟩,
     ⟨[0], [0], [], [0], 30000, some 30000⟩]
    [⟨[0], [0], [1], [], 30000, none⟩] rfl (Or.inl rfl) (by decide)
  rw [h]
  decide

/-- C3: the put path swallows backend errors per chunk.  If every backend
call raises, `batchPutAll` still resolves after exactly `⌈n / 25⌉` rounds,
the submitted chunks partition the items in order (nothing re-enqueued or
retried), and no round waits; in any resolved run, a round whose call
raised hands the loop exactly the post-splice remainder and emits no
wait. -/
theorem c3_put_errors_abandoned :
    (∀ (I : Type) (cfg : BackoffCfg) (table : String) (items : List I)
      (script : List (Except String (List (PutReq I)))) (hasCallback : Bool),
      (∀ x ∈ script, ∃ s, x = Except.error s) →
      (items.length + 24) / 25 ≤ script.length →
      ∃ t : PutTrace I, batchPutAll cfg script table items hasCallback = .ok (some t) ∧
        t.rounds.length = (items.length + 24) / 25 ∧
        (t.rounds.map PutRound.chunk).flatten = items.map (fun it => ⟨it⟩) ∧
        (∀ r ∈ t.rounds, r.waited = none ∧ ∃ s, r.outcome = .error s)) ∧
    (∀ (I : Type) (cfg : BackoffCfg) (script : List (Except String (List (PutReq I))))
      (table : String) (items : List I) (hasCallback : Bool) (t : PutTrace I),
      batchPutAll cfg script table items hasCallback = .ok (some t) →
      ∀ (pre : List (PutRound I)) (r r2 : PutRound I) (post : List (PutRound I)),
        t.rounds = pre ++ r :: r2 :: post → ∀ e, r.outcome = .error e →
        r.waited = none ∧
        r2.pendingBefore = r.pendingBefore.drop (min r.pendingBefore.length batchWriteLimit)) := by
  constructor
  · intro I cfg table items script hasCallback hall hlen
    obtain ⟨rounds, hrun, hcount, hflat, hprops⟩ := putGo_allError cfg hasCallback script
      (items.map (fun it => ⟨it⟩)) cfg.backoffInitial hall
      (by simpa [batchWriteLimit] using hlen)
    refine ⟨⟨rounds, (if hasCallback then ["starting batch write"] else []) ++
      rounds.filterMap PutRound.logged⟩, ?_, ?_, hflat, hprops⟩
    · simp only [batchPutAll, batchPutAllCore, putInput, hrun]
    · simpa [batchWriteLimit] using hcount
  · intro I cfg script table items hasCallback t h pre r r2 post heq e he
    obtain ⟨hrun, _⟩ := batchPutAll_run cfg script table items hasCallback t h
    have hwf := putGo_sound cfg hasCallback script (items.map (fun it => ⟨it⟩))
      cfg.backoffInitial t.rounds hrun
    rw [heq] at hwf
    have hres0 : putResidual r.outcome = [] := by rw [he]; rfl
    have := (putWF_adjacent cfg hasCallback pre script _ cfg.backoffInitial r r2 post
      hwf).1 hres0
    exact ⟨this.1, this.2.2⟩

theorem c3_put_errors_abandoned_witness :
    ∃ t : PutTrace Nat,
      batchPutAll defaultCfg [Except.error "boom"] "T" [1, 2] false = .ok (some t) ∧
      t.rounds.length = (2 + 24) / 25 ∧
      (t.rounds.map PutRound.chunk).flatten = [⟨1⟩, ⟨2⟩] ∧
      (∀ r ∈ t.rounds, r.waited = none ∧ ∃ s, r.outcome = .error s) := by
  have h := c3_put_errors_abandoned.1 Nat defaultCfg "T" [1, 2] [Except.error "boom"] false
    (by
      intro x hx
      simp only [List.mem_singleton] at hx
      exact ⟨"boom", hx⟩)
    (by decide)
  simpa using h

/-- C9 counterexample: the claim says the callback is invoked exactly once
per round, but a `batchPutAll` call with an empty item list and a callback
performs zero rounds while still invoking the callback once (with
`"starting batch write"`). -/
theorem c9_counterexample :
    batchPutAll defaultCfg [] "T" ([] : List Nat) true =
      .ok (some ⟨[], ["starting batch write"]⟩) ∧
    ¬ (∀ t : PutTrace Nat, batchPutAll defaultCfg [] "T" ([] : List Nat) true = .ok (some t) →
        t.log.length = t.rounds.length) := by
  refine ⟨rfl, ?_⟩
  intro hclaim
  have := hclaim ⟨[], ["starting batch write"]⟩ rfl
  simp at this

/-- C9 (amended): for every resolved `batchPutAll` call with a callback,
the callback is invoked once at the start with `"starting batch write"`
and then exactly once per round before that round's backend call,
receiving the string-formatted size of the pending queue as it stands at
that invocation — i.e. after the round's chunk has been spliced out. -/
theorem c9_put_progress_log :
    ∀ (I : Type) (cfg : BackoffCfg) (script : List (Except String (List (PutReq I))))
      (table : String) (items : List I) (t : PutTrace I),
      batchPutAll cfg script table items true = .ok (some t) →
      t.log = "starting batch write" ::
        t.rounds.map (fun r =>
          Nat.repr (r.pendingBefore.length - min r.pendingBefore.length batchWriteLimit)) ∧
      ∀ r ∈ t.rounds, r.logged = some
        (Nat.repr (r.pendingBefore.length - min r.pendingBefore.length batchWriteLimit)) := by
  intro I cfg script table items t h
  obtain ⟨hrun, hlog⟩ := batchPutAll_run cfg script table items true t h
  have hwf := putGo_sound cfg true script (items.map (fun it => ⟨it⟩))
    cfg.backoffInitial t.rounds hrun
  have hmem := putWF_mem cfg true t.rounds script _ cfg.backoffInitial hwf
  have hlogged : ∀ r ∈ t.rounds, r.logged = some
      (Nat.repr (r.pendingBefore.length - min r.pendingBefore.length batchWriteLimit)) := by
    intro r hr
    have := (hmem r hr).2.2.2.2
    simpa using this
  refine ⟨?_, hlogged⟩
  rw [hlog, filterMap_all_some PutRound.logged _ t.rounds hlogged]
  rfl

theorem c9_put_progress_log_witness :
    (⟨[⟨[⟨1⟩, ⟨2⟩], [⟨1⟩, ⟨2⟩], Except.ok [], 1000, none, some "0"⟩],
      ["starting batch write", "0"]⟩ : PutTrace Nat).log =
      "starting batch write" ::
        ([⟨[⟨1⟩, ⟨2⟩], [⟨1⟩, ⟨2⟩], Except.ok [], 1000, none, some "0"⟩] :
          List (PutRound Nat)).map (fun r =>
            Nat.repr (r.pendingBefore.length - min r.pendingBefore.length batchWriteLimit)) := by
  have h := c9_put_progress_log Nat defaultCfg [Except.ok []] "T" [1, 2]
    ⟨[⟨[⟨1⟩, ⟨2⟩], [⟨1⟩, ⟨2⟩], Except.ok [], 1000, none, some "0"⟩],
      ["starting batch write", "0"]⟩ (by decide)
  exact h.1

end TiDdb
